import Mathlib

/-!
Verification development for the layered transactional key-value session
engine (`session.hpp`, namespace `eosio::session`).

The shallow embedding models `shared_bytes` keys and values as natural
numbers (the source only requires an orderable, equality-comparable byte
buffer; the sentinel `shared_bytes::invalid` / `key_value::invalid` is
modelled by `Option`).  The ordered collaborator containers (the overlay
cache `Cache_data_store` and the persistent `Persistent_data_store`), which
the header accesses only through the interface of spec section 6, are
modelled as key-sorted association lists.  A `session_impl` is a `Layer`
(overlay cache, iterator cache, updated-key set, deleted-key set); a
session handle together with its position in the chain is a `Sess`,
holding the layer itself (`cur`), its ancestors in parent order (`anc`,
root last), its descendants in child order (`desc`), and the shared
backing store (`none` models a null `backing_data_store` pointer, as on a
session degraded by nest/detach/undo).
-/

namespace SessionKV

abbrev K := Nat
abbrev V := Nat

/-- An ordered key-value container (overlay cache / persistent store),
kept sorted by key.  Models the collaborator interface of spec section 6. -/
abbrev Store := List (K × V)

/-- Membership-style lookup: the collaborator `read`, with `none` for the
`key_value::invalid` sentinel. -/
def storeRead (st : Store) (k : K) : Option V :=
  (st.find? (fun e => e.1 == k)).map (·.2)

/-- The collaborator `contains`. -/
def storeContains (st : Store) (k : K) : Bool :=
  (storeRead st k).isSome

/-- The collaborator `write`: ordered insert-or-replace. -/
def storeWrite (st : Store) (k : K) (v : V) : Store :=
  match st with
  | [] => [(k, v)]
  | e :: rest =>
    if k < e.1 then (k, v) :: e :: rest
    else if k = e.1 then (k, v) :: rest
    else e :: storeWrite rest k v

/-- The collaborator single-key `erase`. -/
def storeEraseKey (st : Store) (k : K) : Store :=
  st.filter (fun e => e.1 ≠ k)

/-- The collaborator batch `erase`. -/
def storeEraseKeys (st : Store) (ks : List K) : Store :=
  ks.foldl storeEraseKey st

/-- The collaborator batch `write`. -/
def storeWriteBatch (st : Store) (es : List (K × V)) : Store :=
  es.foldl (fun b e => storeWrite b e.1 e.2) st

/-- Index of `lower_bound(k)` in a sorted store (`st.length` is `end`). -/
def storeLowerBound (st : Store) (k : K) : Nat :=
  (st.takeWhile (fun e => decide (e.1 < k))).length

/-- Index of `upper_bound(k)` in a sorted store (`st.length` is `end`). -/
def storeUpperBound (st : Store) (k : K) : Nat :=
  (st.takeWhile (fun e => decide (e.1 ≤ k))).length

/-- The per-key `iterator_state` record of the iterator cache. -/
structure IterSt where
  nextInCache : Bool := false
  previousInCache : Bool := false
  deleted : Bool := false
deriving DecidableEq, Repr

/-- The iterator cache `std::map<shared_bytes, iterator_state>`, kept
sorted by key. -/
abbrev ItCache := List (K × IterSt)

def icFind (ic : ItCache) (k : K) : Option IterSt :=
  (ic.find? (fun e => e.1 == k)).map (·.2)

def icMem (ic : ItCache) (k : K) : Prop :=
  (icFind ic k).isSome = true

instance (ic : ItCache) (k : K) : Decidable (icMem ic k) := by
  unfold icMem; infer_instance

/-- `iterator_cache.try_emplace(key, iterator_state{})`: ordered insert of
a default entry when the key is absent, otherwise no change. -/
def icTryEmplace (ic : ItCache) (k : K) : ItCache :=
  match ic with
  | [] => [(k, {})]
  | e :: rest =>
    if k < e.1 then (k, {}) :: e :: rest
    else if k = e.1 then e :: rest
    else e :: icTryEmplace rest k

/-- In-place update of the state stored under a key. -/
def icModify (ic : ItCache) (k : K) (f : IterSt → IterSt) : ItCache :=
  ic.map (fun e => if e.1 = k then (e.1, f e.2) else e)

/-- The key after `k` in the iterator cache's sorted order (`++` on a
`std::map` iterator); `none` is the end position. -/
def icNextKey (ic : ItCache) (k : K) : Option K :=
  (ic.find? (fun e => decide (k < e.1))).map (·.1)

/-- The first key of the iterator cache (`std::begin`). -/
def icFirstKey (ic : ItCache) : Option K :=
  ic.head?.map (·.1)

/-- One `session_impl`'s own mutable state: overlay cache, iterator cache,
updated-key set and deleted-key set (the unordered sets are modelled as
duplicate-free lists in insertion order). -/
structure Layer where
  cache : Store := []
  itCache : ItCache := []
  updated : List K := []
  deleted : List K := []
deriving DecidableEq, Repr

def emptyLayer : Layer := {}

/-- A session and its position in the chain: `cur` is the layer the handle
points at, `anc` its proper ancestors (parent first, root last), `desc`
its descendants (child first), and `backing` the shared backing store
(`none` models a null `backing_data_store` pointer). -/
structure Sess where
  cur : Layer := {}
  anc : List Layer := []
  desc : List Layer := []
  backing : Option Store := none
deriving DecidableEq, Repr

/-- Replace the current layer's iterator cache (the only field
`update_iterator_cache` and `bounds` ever mutate). -/
def setIC (s : Sess) (ic : ItCache) : Sess :=
  {s with cur := {s.cur with itCache := ic}}

/-- Unordered-set `emplace` on a key set. -/
def insertKey (l : List K) (k : K) : List K :=
  if k ∈ l then l else l ++ [k]

/-- Unordered-set `erase` on a key set. -/
def eraseKey (l : List K) (k : K) : List K :=
  l.filter (fun a => a ≠ k)

/-!
The `make_iterator_` machinery.  The source passes the starting-position
predicate, the comparator and the move functor as lambdas; there are only
finitely many call sites, defunctionalised here as small inductives.
-/

/-- Starting-position predicates handed to `make_iterator_`: `std::begin`,
`std::end`, `lower_bound(k)`, `upper_bound(k)`, and the `lower` lambda of
`session_impl::bounds` (`lower_bound(k)` stepped back one when it is
neither `begin` nor `end`, otherwise `end`). -/
inductive StartPred where
  | beginP
  | endP
  | lowerB (k : K)
  | upperB (k : K)
  | lowerPred (k : K)
deriving DecidableEq, Repr

/-- Comparators handed to `make_iterator_`: `std::less` and
`std::greater`. -/
inductive Cmp where
  | lt
  | gt
deriving DecidableEq, Repr

/-- Move functors handed to `make_iterator_`: `++it` and `it = end`. -/
inductive Mv where
  | inc
  | toEnd
deriving DecidableEq, Repr

/-- Interpret a starting-position predicate as an index into a store
(`st.length` is `end`). -/
def interpPred : StartPred → Store → Nat
  | .beginP, _ => 0
  | .endP, st => st.length
  | .lowerB k, st => storeLowerBound st k
  | .upperB k, st => storeUpperBound st k
  | .lowerPred k, st =>
    let i := storeLowerBound st k
    if i ≠ 0 ∧ i ≠ st.length then i - 1 else st.length

def interpCmp : Cmp → K → K → Bool
  | .lt, a, b => decide (a < b)
  | .gt, a, b => decide (b < a)

/-- The `deleted` lambda of `make_iterator_`: walking the given descendant
list (root's child downward, stopping at the session the iterator is made
on), a key is shadowed when the last of its `deleted`/`updated`
occurrences along the walk is a `deleted` one. -/
def shadowTest (walk : List Layer) (k : K) : Bool :=
  walk.foldl
    (fun r l =>
      if k ∈ l.deleted then true
      else if k ∈ l.updated then false
      else r)
    false

/-- The list of layers the `deleted` lambda visits for a session `s`: from
the root's child down to `s` itself (the walk breaks at `child == m_impl`);
when `s` is the root the walk runs through every descendant instead. -/
def walkList (s : Sess) : List Layer :=
  if s.anc.isEmpty then s.desc else ((s.cur :: s.anc).reverse).drop 1

/-- The `find_first_not` lambda: from position `i`, return the first key
not shadowed (with its position), advancing by the move functor; `none`
when the scan reaches `end`.  Recursion is on an explicit fuel that is
always sufficient (positions strictly increase). -/
def ffnAux (walk : List Layer) (st : Store) (mv : Mv) : Nat → Nat → Option (K × Nat)
  | 0, _ => none
  | fuel + 1, i =>
    if h : i < st.length then
      let key := (st.get ⟨i, h⟩).1
      if shadowTest walk key then
        match mv with
        | .inc => ffnAux walk st mv fuel (i + 1)
        | .toEnd => none
      else some (key, i)
    else none

def ffn (walk : List Layer) (st : Store) (mv : Mv) (i : Nat) : Option (K × Nat) :=
  ffnAux walk st mv (st.length + 1) i

/-- One step of the layer scan of `make_iterator_`: scan this layer's
overlay from the predicate's start; the `Bool` result is the source's
`pending == end` (in which case `current_key` is untouched and the loop
`continue`s, skipping the break-at-`m_impl` check). -/
def scanStep (walk : List Layer) (pred : StartPred) (cmp : Cmp) (mv : Mv)
    (ck : Option K) (l : Layer) : Option K × Bool :=
  match ffn walk l.cache mv (interpPred pred l.cache) with
  | none => (ck, true)
  | some (pk, _) =>
    match ck with
    | none => (some pk, false)
    | some c => (if interpCmp cmp pk c then some pk else some c, false)

/-- Scan of the descendant layers, reached only when the session's own
scan came back `pending == end` (the `continue` skips the break, and the
break condition `current == m_impl` can never fire below `m_impl`). -/
def scanDesc (walk : List Layer) (pred : StartPred) (cmp : Cmp) (mv : Mv)
    (desc : List Layer) (ck : Option K) : Option K :=
  desc.foldl (fun c l => (scanStep walk pred cmp mv c l).1) ck

/-- Scan of the layers from the root down to the session itself (the last
list element), with the source's break semantics: the loop breaks after
processing `m_impl` unless that scan came back `pending == end`, in which
case it continues into the descendants. -/
def scanUp (walk : List Layer) (pred : StartPred) (cmp : Cmp) (mv : Mv)
    (desc : List Layer) : List Layer → Option K → Option K
  | [], ck => scanDesc walk pred cmp mv desc ck
  | [l], ck =>
    match scanStep walk pred cmp mv ck l with
    | (ck', true) => scanDesc walk pred cmp mv desc ck'
    | (ck', false) => ck'
  | l :: l' :: ls, ck =>
    scanUp walk pred cmp mv desc (l' :: ls) (scanStep walk pred cmp mv ck l).1

/-- The winning key of `make_iterator_`'s search: the backing-store
candidate first (the source dereferences `backing_data_store`
unconditionally here; a null pointer is undefined behaviour, modelled as
an empty store — no theorem below exercises that combination), then every
layer from the root down. -/
def scanKey (s : Sess) (pred : StartPred) (cmp : Cmp) (mv : Mv) : Option K :=
  let walk := walkList s
  let bst := s.backing.getD []
  let ck0 := (ffn walk bst mv (interpPred pred bst)).map (·.1)
  scanUp walk pred cmp mv s.desc ((s.cur :: s.anc).reverse) ck0

/-- `make_iterator_` with `prime_cache_only = true` (the form used by
`bounds`): the winning key is only emplaced into the iterator cache, and
the resulting active position is that key — or the end position when the
existing cache entry is flagged deleted.  Returns the new iterator cache
and the active position (`none` is the end position). -/
def makeIteratorPrime (s : Sess) (pred : StartPred) (cmp : Cmp) (mv : Mv) :
    ItCache × Option K :=
  match scanKey s pred cmp mv with
  | none => (s.cur.itCache, none)
  | some ck =>
    let ic := icTryEmplace s.cur.itCache ck
    match icFind ic ck with
    | some st => (ic, if st.deleted then none else some ck)
    | none => (ic, none)

/-- The `lower_bound != end` / `upper_bound != end` comparisons inside
`bounds`, following `session_iterator::operator==`.  The case of an active
left iterator against an active right one compares keys; a left end
position against an active right one dereferences the end iterator in the
source — that case is unreachable in `bounds` (the `end` iterator's
position is always the end position) and is modelled as `true`. -/
def iterNeqEnd (pos endPos : Option K) : Bool :=
  match pos, endPos with
  | none, none => false
  | some _, none => true
  | some a, some b => !(a == b)
  | none, some _ => true

/-- `session_impl::bounds`: three `make_iterator_` calls with
`prime_cache_only = true` on the same impl (each sees the iterator-cache
mutations of the previous one), then the keys of the non-end lower and
upper iterators.  Returns the pair and the mutated iterator cache. -/
def boundsImpl (s : Sess) (k : K) : (Option K × Option K) × ItCache :=
  let r1 := makeIteratorPrime s (.lowerPred k) .lt .inc
  let s1 := setIC s r1.1
  let r2 := makeIteratorPrime s1 (.upperB k) .lt .inc
  let s2 := setIC s r2.1
  let r3 := makeIteratorPrime s2 .endP .gt .toEnd
  let lo := if iterNeqEnd r1.2 r3.2 then r1.2 else none
  let hi := if iterNeqEnd r2.2 r3.2 then r2.2 else none
  ((lo, hi), r3.1)

/-- The flags of `session_impl::iterator_cache_params`. -/
structure ICParams where
  primeOnly : Bool := false
  recalculate : Bool := false
  markDeleted : Bool := false
  overwrite : Bool := true
deriving DecidableEq, Repr

/-- `session_impl::update_iterator_cache`: emplace the key; on
`prime_only` stop there; apply the `overwrite`/`mark_deleted` flag; unless
forced to recalculate while both neighbour flags are set, compute `bounds`
and record each present bound in the cache (setting the bound's opposite
flag and the key's own flag), as in the source.  Returns the new iterator
cache — the only state this function mutates. -/
def updateIteratorCacheF (s : Sess) (k : K) (p : ICParams) : ItCache :=
  let ic0 := icTryEmplace s.cur.itCache k
  if p.primeOnly then ic0
  else
    let ic1 := if p.overwrite then icModify ic0 k (fun st => {st with deleted := p.markDeleted}) else ic0
    let st := (icFind ic1 k).getD {}
    if !p.recalculate && st.nextInCache && st.previousInCache then ic1
    else
      let r := boundsImpl (setIC s ic1) k
      let ic2 := r.2
      let ic3 :=
        match r.1.1 with
        | none => ic2
        | some lk =>
          icModify (icModify (icTryEmplace ic2 lk) lk (fun st => {st with nextInCache := true}))
            k (fun st => {st with previousInCache := true})
      let ic4 :=
        match r.1.2 with
        | none => ic3
        | some hk =>
          icModify (icModify (icTryEmplace ic3 hk) hk (fun st => {st with previousInCache := true}))
            k (fun st => {st with nextInCache := true})
      ic4

/-- `make_iterator_` with `prime_cache_only = false`: as
`makeIteratorPrime` but the winning key goes through the full
`update_iterator_cache` with `recalculate = true, overwrite = false`. -/
def makeIteratorF (s : Sess) (pred : StartPred) (cmp : Cmp) (mv : Mv) :
    Sess × Option K :=
  match scanKey s pred cmp mv with
  | none => (s, none)
  | some ck =>
    let s' := setIC s (updateIteratorCacheF s ck ⟨false, true, false, false⟩)
    match icFind s'.cur.itCache ck with
    | some st => (s', if st.deleted then none else some ck)
    | none => (s', none)

/-- `session::begin()`. -/
def beginIter (s : Sess) : Sess × Option K :=
  makeIteratorF s .beginP .lt .inc

/-- `session::end()`. -/
def endIter (s : Sess) : Sess × Option K :=
  makeIteratorF s .endP .gt .toEnd

/-!
Merge-view reads and the tip mutators.
-/

/-- Outcome of the upward walk of `session::read`: a tombstone hit, a hit
at a recorded depth (0 is the session's own layer), or a miss at every
layer. -/
inductive LookupRes where
  | tomb
  | found (depth : Nat) (v : V)
  | miss
deriving DecidableEq, Repr

/-- The upward walk shared by `read`, its batch form and `write_to`: at
each layer the deleted set is consulted before the overlay. -/
def layersLookup : List Layer → K → LookupRes
  | [], _ => .miss
  | l :: ls, k =>
    if k ∈ l.deleted then .tomb
    else
      match storeRead l.cache k with
      | some v => .found 0 v
      | none =>
        match layersLookup ls k with
        | .found d v => .found (d + 1) v
        | r => r

/-- `session::read`: walk toward the root; a tombstone returns the invalid
sentinel; a hit at an ancestor is written into this session's overlay and
its iterator cache is refreshed with `recalculate = true, overwrite =
false`; a miss consults the backing store when present (caching a hit the
same way). -/
def readImpl (s : Sess) (k : K) : Option (K × V) × Sess :=
  match layersLookup (s.cur :: s.anc) k with
  | .tomb => (none, s)
  | .found 0 v => (some (k, v), s)
  | .found (_ + 1) v =>
    let s1 := {s with cur := {s.cur with cache := storeWrite s.cur.cache k v}}
    (some (k, v), setIC s1 (updateIteratorCacheF s1 k ⟨false, true, false, false⟩))
  | .miss =>
    match s.backing with
    | none => (none, s)
    | some b =>
      match storeRead b k with
      | none => (none, s)
      | some v =>
        let s1 := {s with cur := {s.cur with cache := storeWrite s.cur.cache k v}}
        (some (k, v), setIC s1 (updateIteratorCacheF s1 k ⟨false, true, false, false⟩))

/-- `session::contains`: same walk; a hit at any layer (the session's own
included) refreshes the iterator cache and returns true; a miss falls
through to `backing_data_store->contains(key)` with no null check (the
source's `read` guards the pointer, `contains` does not).  `none` models
the undefined dereference of an absent backing store — both on the final
line and inside the `bounds` computation the hit path triggers. -/
def containsImpl (s : Sess) (k : K) : Option Bool × Sess :=
  match layersLookup (s.cur :: s.anc) k with
  | .tomb => (some false, s)
  | .found _ _ =>
    match s.backing with
    | none => (none, s)
    | some _ => (some true, setIC s (updateIteratorCacheF s k ⟨false, true, false, false⟩))
  | .miss =>
    match s.backing with
    | none => (none, s)
    | some b => (some (storeContains b k), s)

/-- `session::write`: emplace into `updated_keys`, erase from
`deleted_keys`, write the overlay, refresh the iterator cache with
`recalculate = true, mark_deleted = false, overwrite = true`. -/
def sessWrite (s : Sess) (kv : K × V) : Sess :=
  let s1 := {s with cur := {s.cur with
    updated := insertKey s.cur.updated kv.1,
    deleted := eraseKey s.cur.deleted kv.1,
    cache := storeWrite s.cur.cache kv.1 kv.2}}
  setIC s1 (updateIteratorCacheF s1 kv.1 ⟨false, true, false, true⟩)

/-- `session::erase` (single key): emplace into `deleted_keys`, erase from
`updated_keys`, erase from the overlay, refresh the iterator cache with
`recalculate = true, mark_deleted = true, overwrite = true`. -/
def sessErase (s : Sess) (k : K) : Sess :=
  let s1 := {s with cur := {s.cur with
    updated := eraseKey s.cur.updated k,
    deleted := insertKey s.cur.deleted k,
    cache := storeEraseKey s.cur.cache k}}
  setIC s1 (updateIteratorCacheF s1 k ⟨false, true, true, true⟩)

/-- `session::clear` / `session_impl::clear`: empty the four local
components. -/
def sessClear (s : Sess) : Sess :=
  {s with cur := emptyLayer}

/-- The per-key loop of the batch `session::read`, threading the state
(an ancestor hit is cached immediately) and accumulating the found pairs
and the not-found set.  The source also computes a `deleted` flag on a
tombstone hit, but never uses it: a tombstoned key falls into the
not-found set exactly like a genuine miss. -/
def batchReadLoop (s : Sess) (kvs : List (K × V)) (nf : List K) :
    List K → Sess × List (K × V) × List K
  | [] => (s, kvs, nf)
  | k :: rest =>
    match layersLookup (s.cur :: s.anc) k with
    | .tomb => batchReadLoop s kvs (insertKey nf k) rest
    | .found 0 v => batchReadLoop s (kvs ++ [(k, v)]) nf rest
    | .found (_ + 1) v =>
      let s1 := {s with cur := {s.cur with cache := storeWrite s.cur.cache k v}}
      let s2 := setIC s1 (updateIteratorCacheF s1 k ⟨false, true, false, false⟩)
      batchReadLoop s2 (kvs ++ [(k, v)]) nf rest
    | .miss => batchReadLoop s kvs (insertKey nf k) rest

/-- Batch `session::read`: the per-key walk, then one backing-store batch
read over the whole not-found set (tombstoned keys included), whose hits
are written into this session's overlay and appended to the result. -/
def batchReadImpl (s : Sess) (keys : List K) :
    (List (K × V) × List K) × Sess :=
  let r := batchReadLoop s [] [] keys
  match r.1.backing with
  | none => ((r.2.1, r.2.2), r.1)
  | some b =>
    let found := r.2.2.filterMap (fun k => (storeRead b k).map (fun v => (k, v)))
    let missing := r.2.2.filter (fun k => !storeContains b k)
    let s2 :=
      if found.isEmpty then r.1
      else {r.1 with cur := {r.1.cur with cache := storeWriteBatch r.1.cur.cache found}}
    ((r.2.1 ++ found, missing), s2)

/-- The per-key walk of `session::write_to`: a tombstone at any layer
breaks (the key is skipped); an overlay hit is copied; the backing store
is never consulted. -/
def wtWalk : List Layer → K → Option V
  | [], _ => none
  | l :: ls, k =>
    if k ∈ l.deleted then none
    else
      match storeRead l.cache k with
      | some v => some v
      | none => wtWalk ls k

/-- `session::write_to`: collect the per-key walk results (re-allocated
into the destination's buffers in the source, value-identical here) and
batch-write them into the destination store. -/
def writeToImpl (s : Sess) (ds : Store) (keys : List K) : Store :=
  let results := keys.filterMap (fun k => (wtWalk (s.cur :: s.anc) k).map (fun v => (k, v)))
  storeWriteBatch ds results

/-!
Chain operations: nest, undo, commit.
-/

/-- Nesting a child on a session (`make_session(session)` plus the
`parent->child` hookup): the new tip has an empty layer, the old session
and its ancestors above it, no descendants (a stale child of the parent is
degraded and drops out of the chain), and the inherited backing store. -/
def nestImpl (s : Sess) : Sess :=
  ⟨emptyLayer, s.cur :: s.anc, [], s.backing⟩

/-- `session_impl::undo`: reconnect `parent->child` to this session's
child and vice versa, then null this session's parent, child and backing
pointers and clear its local state.  Returns the degraded session and the
parent's resulting view (`none` when there is no parent). -/
def undoImpl (s : Sess) : Sess × Option Sess :=
  (⟨emptyLayer, [], [], none⟩,
   match s.anc with
   | [] => none
   | p :: rest => some ⟨p, rest, s.desc, s.backing⟩)

/-- The entries `cache.write_to(ds, updated_keys)` emits during commit:
the overlay values of the updated keys that are present in the overlay. -/
def commitEntries (l : Layer) : List (K × V) :=
  l.updated.filterMap (fun k => (storeRead l.cache k).map (fun v => (k, v)))

/-- `session_impl::commit`: a no-op on an undone layer (no parent, no
backing) and when there is nothing to commit (both key sets empty);
otherwise erase the deleted keys from the destination, write the updated
overlay entries, and clear this layer.  With a parent the destination is
the parent *session* (batch `session::erase` then per-entry
`session::write`, both of which maintain the parent's own bookkeeping and
iterator cache); at the root it is the backing store. -/
def commitImpl (s : Sess) : Sess :=
  if s.anc = [] ∧ s.backing = none then s
  else if s.cur.updated = [] ∧ s.cur.deleted = [] then s
  else
    match s.anc with
    | p :: rest =>
      let ps : Sess := ⟨p, rest, s.cur :: s.desc, s.backing⟩
      let ps := s.cur.deleted.foldl sessErase ps
      let ps := (commitEntries s.cur).foldl sessWrite ps
      ⟨emptyLayer, ps.cur :: ps.anc, s.desc, ps.backing⟩
    | [] =>
      match s.backing with
      | some b =>
        ⟨emptyLayer, [], s.desc,
         some (storeWriteBatch (storeEraseKeys b s.cur.deleted) (commitEntries s.cur))⟩
      | none => s

/-!
Session handles.  A `session` value holds a possibly-null
`shared_ptr<session_impl>`; `none` models a destroyed or empty handle.
-/

/-- The distinguished `session::invalid` sentinel: the default constructor
builds a *live* impl over a freshly default-constructed (empty) backing
store, with no parent and no child. -/
def invalidSession : Sess := ⟨emptyLayer, [], [], some []⟩

/-- A fresh root session over a given backing store. -/
def mkRootSess (b : Store) : Sess := ⟨emptyLayer, [], [], some b⟩

/-- `session_impl::prime_cache` on one layer: clear the iterator cache and
drop every overlay entry whose key is not in the updated set. -/
def primeLayer (l : Layer) : Layer :=
  {l with itCache := [], cache := l.cache.filter (fun e => e.1 ∈ l.updated)}

/-- `session::detach`: on an empty handle return the invalid sentinel;
otherwise hand back the current child (its parent and backing pointers
cleared — `none` when there is no child, which the source wraps into an
*empty* handle) and reset this session's child pointer. -/
def detachH : Option Sess → Option Sess × Option Sess
  | none => (none, some invalidSession)
  | some s =>
    (some {s with desc := []},
     match s.desc with
     | [] => none
     | d :: ds => some ⟨d, [], ds, none⟩)

/-- `session::attach`: on an empty handle return the invalid sentinel;
otherwise detach the current child, graft the argument under this session
(inheriting the backing store) and prime its whole subtree, returning the
previous child.  The result is the new handle state paired with the
returned session. -/
def attachH : Option Sess → Sess → Option Sess × Option Sess
  | none, _ => (none, some invalidSession)
  | some s, c =>
    let r := detachH (some s)
    let grafted := (primeLayer c.cur) :: c.desc.map primeLayer
    (some {s with desc := grafted}, r.2)

/-- `session::commit` on a handle: no-op on an empty handle. -/
def commitH : Option Sess → Option Sess
  | none => none
  | some s => some (commitImpl s)

/-- `session::undo` on a handle: no-op on an empty handle. -/
def undoH : Option Sess → Option Sess
  | none => none
  | some s => some (undoImpl s).1

/-- `session::write` on a handle: no-op on an empty handle. -/
def writeH : Option Sess → K × V → Option Sess
  | none, _ => none
  | some s, kv => some (sessWrite s kv)

/-- `session::erase` on a handle: no-op on an empty handle. -/
def eraseH : Option Sess → K → Option Sess
  | none, _ => none
  | some s, k => some (sessErase s k)

/-- `session::clear` on a handle: no-op on an empty handle. -/
def clearH : Option Sess → Option Sess
  | none => none
  | some s => some (sessClear s)

/-- `session::read` on a handle: the invalid sentinel on an empty
handle. -/
def readH : Option Sess → K → Option (K × V) × Option Sess
  | none, _ => (none, none)
  | some s, k =>
    let r := readImpl s k
    (r.1, some r.2)

/-!
Iterator increment (`session_iterator::move_next_`).  An iterator is its
active position in the owning session's iterator cache: `some k` points at
the entry for `k`, `none` is the end position.  `MoveRes.ub` marks a point
where the source dereferences the end iterator (or a vanished entry) —
undefined behaviour in C++.
-/

inductive MoveRes where
  | ok (s : Sess) (pos : Option K)
  | ub
  | noFuel
deriving DecidableEq, Repr

/-- The active position after a successful move, for stating results. -/
def MoveRes.pos? : MoveRes → Option (Option K)
  | .ok _ p => some p
  | _ => none

/-- The rollover of `move_next_`: an end position rolls over to
`std::begin` of the iterator cache. -/
def rolloverNext (s : Sess) (pos : Option K) : MoveRes :=
  match pos with
  | none => .ok s (icFirstKey s.cur.itCache)
  | some k => .ok s (some k)

/-- Outcome of one `move`/test round inside the loop: continue the
do-loop at a key, or stop with a result. -/
inductive StepRes where
  | cont (k : K)
  | stop (r : MoveRes)
deriving DecidableEq, Repr

/-- After `++it` inside `move_`: the source tests
`!it->second.deleted || it == end` with the dereference evaluated first,
so landing on the end position dereferences it (undefined behaviour); a
deleted entry continues the do-loop, any other entry breaks out to the
rollover. -/
def moveNextStep (s : Sess) (k : K) : StepRes :=
  match icNextKey s.cur.itCache k with
  | none => .stop .ub
  | some k' =>
    match icFind s.cur.itCache k' with
    | none => .stop .ub
    | some st' => if st'.deleted then .cont k' else .stop (rolloverNext s (some k'))

/-- The `move_`/`rollover` loop of `move_next_`: the test
`it->second.next_in_cache` dereferences the active position, so starting
at the end position is undefined behaviour; a failed test forces
`update_iterator_cache` with `recalculate = true, overwrite = false` and,
when the flag is still unset, moves to the end position and rolls over to
`std::begin`. -/
def moveNextLoop : Sess → Option K → Nat → MoveRes
  | _, _, 0 => .noFuel
  | s, pos, fuel + 1 =>
    match pos with
    | none => .ub
    | some k =>
      match icFind s.cur.itCache k with
      | none => .ub
      | some st =>
        if st.nextInCache then
          match moveNextStep s k with
          | .cont k' => moveNextLoop s (some k') fuel
          | .stop r => r
        else
          let s' := setIC s (updateIteratorCacheF s k ⟨false, true, false, false⟩)
          match icFind s'.cur.itCache k with
          | none => .ub
          | some st' =>
            if st'.nextInCache then
              match moveNextStep s' k with
              | .cont k' => moveNextLoop s' (some k') fuel
              | .stop r => r
            else rolloverNext s' none

/-!
Specification-side definitions, written from the spec's words, for the
refinement statements.
-/

/-- Modelled from the spec (section 4.2 / claim C1 wording): the walk from
a session toward the root — the first layer whose deleted set contains the
key yields the invalid sentinel (`some none`), otherwise the first layer
whose overlay contains the key yields that value (`some (some v)`);
`none` when no layer decides. -/
def specWalk : List Layer → K → Option (Option V)
  | [], _ => none
  | l :: ls, k =>
    if k ∈ l.deleted then some none
    else
      match storeRead l.cache k with
      | some v => some (some v)
      | none => specWalk ls k

/-- Modelled from the spec: the merged-view value of a key at a session —
the layer walk when it decides, otherwise the backing store through the
root, otherwise absent. -/
def mergedValue (s : Sess) (k : K) : Option V :=
  match specWalk (s.cur :: s.anc) k with
  | some r => r
  | none => s.backing.bind (fun b => storeRead b k)

/-- The operations a user can apply through the tip session handle without
touching the chain topology. -/
inductive TipOp where
  | wr (k : K) (v : V)
  | er (k : K)
  | rd (k : K)
  | ct (k : K)
  | clr
deriving DecidableEq, Repr

def applyTipOp (s : Sess) : TipOp → Sess
  | .wr k v => sessWrite s (k, v)
  | .er k => sessErase s k
  | .rd k => (readImpl s k).2
  | .ct k => (containsImpl s k).2
  | .clr => sessClear s

def applyTipOps (ops : List TipOp) (s : Sess) : Sess :=
  ops.foldl applyTipOp s

/-- The public operations of claim C8, applied through a session
handle. -/
inductive PubOp where
  | wr (kv : K × V)
  | er (k : K)
  | wrB (kvs : List (K × V))
  | erB (ks : List K)
  | rd (k : K)
  | rdB (ks : List K)
  | cmt
  | clr
  | und
deriving DecidableEq, Repr

def applyPubOp (s : Sess) : PubOp → Sess
  | .wr kv => sessWrite s kv
  | .er k => sessErase s k
  | .wrB kvs => kvs.foldl sessWrite s
  | .erB ks => ks.foldl sessErase s
  | .rd k => (readImpl s k).2
  | .rdB ks => (batchReadImpl s ks).2
  | .cmt => commitImpl s
  | .clr => sessClear s
  | .und => (undoImpl s).1

def applyPubOps (ops : List PubOp) (s : Sess) : Sess :=
  ops.foldl applyPubOp s

/-- The disjointness invariant of claim C8, over every layer a session
handle can reach. -/
def DisjInv (s : Sess) : Prop :=
  ∀ l ∈ s.cur :: (s.anc ++ s.desc), ∀ k ∈ l.updated, k ∉ l.deleted

instance (s : Sess) : Decidable (DisjInv s) := by
  unfold DisjInv; infer_instance

/-- Whether a key is an authored update with an overlay value — the keys
the write phase of commit actually transfers. -/
def liveUpd (l : Layer) (k : K) : Prop :=
  k ∈ l.updated ∧ (storeRead l.cache k).isSome = true

instance (l : Layer) (k : K) : Decidable (liveUpd l k) := by
  unfold liveUpd; infer_instance

/-- The value of the last entry for a key in an entry list (later writes
overwrite earlier ones). -/
def lookupLast : List (K × V) → K → Option V
  | [], _ => none
  | e :: rest, k =>
    match lookupLast rest k with
    | some v => some v
    | none => if e.1 = k then some e.2 else none

/-- The destination layer a commit into a parent produced. -/
def commitParent (s : Sess) : Layer :=
  ((commitImpl s).anc).headD emptyLayer

/-!
Concrete scenario states used by the claim theorems.
-/

/-- A root session whose overlay holds only a read-through cached entry
(present in the overlay, absent from the updated set), nested on an empty
parent. -/
def c2s : Sess := ⟨⟨[(1, 10)], [], [], []⟩, [emptyLayer], [], some []⟩

/-- A tip with an authored update on key 1, a cached read-through entry on
key 2 and a tombstone on key 3, over a parent that authored key 3. -/
def c2w : Sess := ⟨⟨[(1, 10), (2, 20)], [], [1], [3]⟩, [⟨[(3, 30)], [], [3], []⟩], [], some []⟩

/-- A tip with a tombstone on key 1 over a backing store that still holds
key 1. -/
def c3s : Sess := ⟨⟨[], [], [], [1]⟩, [], [], some [(1, 10)]⟩

/-- A root session whose merged view holds key 1 only through the backing
store. -/
def c4s : Sess := mkRootSess [(1, 10)]

/-- A root session over a backing store holding only key 1 (so that every
key above 1 has merged-view predecessor 1). -/
def c5s : Sess := mkRootSess [(1, 10)]

/-- A root session whose merged view is two authored keys, built through
the public write path (its iterator cache therefore holds both keys, the
greater one with `next_in_cache` unset). -/
def c6s : Sess := applyTipOps [.wr 1 10, .wr 2 20] (mkRootSess [])

/-- A session with an ancestor overlay holding key 5: reading 5 through
the tip is an ancestor hit that must be cached. -/
def c1w : Sess := ⟨emptyLayer, [⟨[(5, 50)], [], [], []⟩], [], some []⟩

/-- A fresh root over an empty backing store. -/
def c8s : Sess := mkRootSess []

/-- A session degraded by nest/detach/undo: live impl, no parent, no
backing store. -/
def degSess : Sess := ⟨emptyLayer, [], [], none⟩

/-!
Basic lemmas about the container model.
-/

theorem storeRead_cons (e : K × V) (st : Store) (k : K) :
    storeRead (e :: st) k = if e.1 = k then some e.2 else storeRead st k := by
  by_cases h : e.1 = k
  · have hb : (e.1 == k) = true := by simpa using h
    simp [storeRead, List.find?, hb, h]
  · have hb : (e.1 == k) = false := by simpa using h
    simp [storeRead, List.find?, hb, h]

theorem storeRead_storeWrite (st : Store) (k : K) (v : V) (k' : K) :
    storeRead (storeWrite st k v) k' = if k' = k then some v else storeRead st k' := by
  induction st with
  | nil =>
    by_cases h : k' = k
    · simp [storeWrite, storeRead_cons, storeRead, h]
    · have h' : ¬ k = k' := fun hh => h hh.symm
      simp [storeWrite, storeRead_cons, storeRead, h, h']
  | cons e rest ih =>
    simp only [storeWrite]
    by_cases h1 : k < e.1
    · rw [if_pos h1, storeRead_cons, storeRead_cons]
      by_cases h2 : k = k'
      · subst h2; simp
      · have h2' : ¬ k' = k := fun hh => h2 hh.symm
        simp [h2, h2']
    · rw [if_neg h1]
      by_cases h2 : k = e.1
      · rw [if_pos h2, storeRead_cons, storeRead_cons]
        by_cases h3 : k' = k
        · subst h3; simp [h2.symm]
        · have he : ¬ e.1 = k' := fun hh => h3 (by rw [← hh, h2])
          have h3' : ¬ k = k' := fun hh => h3 hh.symm
          simp [he, h3', h3]
      · rw [if_neg h2, storeRead_cons, storeRead_cons, ih]
        by_cases h3 : e.1 = k'
        · have h4 : ¬ k' = k := fun hh => h2 (by rw [h3]; exact hh.symm)
          simp [h3, h4]
        · simp [h3]

theorem storeRead_storeEraseKey (st : Store) (k k' : K) :
    storeRead (storeEraseKey st k) k' = if k' = k then none else storeRead st k' := by
  induction st with
  | nil =>
    by_cases h : k' = k <;> simp [storeEraseKey, storeRead, h]
  | cons e rest ih =>
    by_cases h1 : e.1 = k
    · have heq : storeEraseKey (e :: rest) k = storeEraseKey rest k := by
        simp [storeEraseKey, List.filter_cons, h1]
      rw [heq, ih, storeRead_cons]
      by_cases h2 : k' = k
      · simp [h2]
      · have he : ¬ e.1 = k' := fun hh => h2 (by rw [← hh, h1])
        simp [h2, he]
    · have heq : storeEraseKey (e :: rest) k = e :: storeEraseKey rest k := by
        simp [storeEraseKey, List.filter_cons, h1]
      rw [heq, storeRead_cons, storeRead_cons, ih]
      by_cases h2 : e.1 = k'
      · have h3 : ¬ k' = k := fun hh => h1 (by rw [h2, hh])
        simp [h2, h3]
      · simp [h2]

theorem storeRead_storeEraseKeys (st : Store) (ks : List K) (k : K) :
    storeRead (storeEraseKeys st ks) k = if k ∈ ks then none else storeRead st k := by
  induction ks generalizing st with
  | nil => simp [storeEraseKeys]
  | cons a ks ih =>
    simp only [storeEraseKeys, List.foldl_cons] at *
    rw [ih (storeEraseKey st a), storeRead_storeEraseKey]
    by_cases h1 : k ∈ ks
    · simp [h1]
    · by_cases h2 : k = a <;> simp [h1, h2]

theorem storeRead_storeWriteBatch (st : Store) (es : List (K × V)) (k : K) :
    storeRead (storeWriteBatch st es) k =
      match lookupLast es k with
      | some v => some v
      | none => storeRead st k := by
  induction es generalizing st with
  | nil => simp [storeWriteBatch, lookupLast]
  | cons e es ih =>
    simp only [storeWriteBatch, List.foldl_cons] at *
    rw [ih (storeWrite st e.1 e.2)]
    simp only [lookupLast]
    cases h : lookupLast es k with
    | some v => simp
    | none =>
      simp only [storeRead_storeWrite]
      by_cases h2 : e.1 = k
      · subst h2; simp
      · have h2' : ¬ k = e.1 := fun hh => h2 hh.symm
        simp [h2, h2']

theorem mem_insertKey (l : List K) (k k' : K) :
    k' ∈ insertKey l k ↔ k' ∈ l ∨ k' = k := by
  unfold insertKey
  by_cases h : k ∈ l
  · simp only [if_pos h]
    constructor
    · exact Or.inl
    · rintro (h1 | rfl)
      · exact h1
      · exact h
  · simp [if_neg h]

theorem mem_eraseKey (l : List K) (k k' : K) :
    k' ∈ eraseKey l k ↔ k' ∈ l ∧ k' ≠ k := by
  simp [eraseKey, List.mem_filter]

/-!
The upward walk: relation between the source walk and the spec walk,
and inversion facts.
-/

theorem specWalk_eq_layersLookup (ls : List Layer) (k : K) :
    specWalk ls k =
      match layersLookup ls k with
      | .tomb => some none
      | .found _ v => some (some v)
      | .miss => none := by
  induction ls with
  | nil => rfl
  | cons l ls ih =>
    simp only [specWalk, layersLookup]
    by_cases h : k ∈ l.deleted
    · simp [h]
    · simp only [if_neg h]
      cases hr : storeRead l.cache k with
      | some v => rfl
      | none =>
        rw [ih]
        cases layersLookup ls k <;> rfl

theorem layersLookup_cons_found_zero (l : Layer) (ls : List Layer) (k : K) (v : V)
    (h : layersLookup (l :: ls) k = .found 0 v) : storeRead l.cache k = some v := by
  by_cases hd : k ∈ l.deleted
  · simp [layersLookup, hd] at h
  · simp only [layersLookup, if_neg hd] at h
    cases hr : storeRead l.cache k with
    | some w =>
      rw [hr] at h
      simp only [LookupRes.found.injEq] at h
      rw [h.2]
    | none =>
      rw [hr] at h
      cases hrec : layersLookup ls k <;> rw [hrec] at h <;> simp at h

/-!
Key membership in the iterator cache is monotone along the machinery.
-/

theorem icFind_cons (e : K × IterSt) (ic : ItCache) (k : K) :
    icFind (e :: ic) k = if e.1 = k then some e.2 else icFind ic k := by
  by_cases h : e.1 = k
  · have hb : (e.1 == k) = true := by simpa using h
    simp [icFind, List.find?, hb, h]
  · have hb : (e.1 == k) = false := by simpa using h
    simp [icFind, List.find?, hb, h]

theorem icMem_tryEmplace (ic : ItCache) (k k' : K) :
    icMem (icTryEmplace ic k) k' ↔ k' = k ∨ icMem ic k' := by
  induction ic with
  | nil =>
    by_cases h : k = k'
    · simp [icTryEmplace, icMem, icFind_cons, icFind, h]
    · have h' : ¬ k' = k := fun hh => h hh.symm
      simp [icTryEmplace, icMem, icFind_cons, icFind, h, h']
  | cons e rest ih =>
    simp only [icTryEmplace]
    by_cases h1 : k < e.1
    · rw [if_pos h1]
      unfold icMem
      rw [icFind_cons, icFind_cons]
      by_cases h2 : k = k'
      · simp [h2]
      · have h2' : ¬ k' = k := fun hh => h2 hh.symm
        simp [h2, h2', icMem]
    · rw [if_neg h1]
      by_cases h2 : k = e.1
      · rw [if_pos h2]
        unfold icMem
        rw [icFind_cons]
        by_cases h3 : k' = k
        · have he : e.1 = k' := by rw [h3, h2]
          simp [he, h3]
        · simp [h3, icMem]
      · rw [if_neg h2]
        unfold icMem
        rw [icFind_cons, icFind_cons]
        by_cases h3 : e.1 = k'
        · simp [h3]
        · have := ih
          unfold icMem at this
          simp [h3, this]

theorem icMem_modify (ic : ItCache) (km : K) (f : IterSt → IterSt) (k : K) :
    icMem (icModify ic km f) k ↔ icMem ic k := by
  induction ic with
  | nil => simp [icModify]
  | cons e rest ih =>
    simp only [icModify, List.map_cons]
    unfold icMem
    by_cases h1 : e.1 = km
    · rw [if_pos h1, icFind_cons, icFind_cons]
      by_cases h2 : e.1 = k
      · simp [h2]
      · have := ih
        unfold icMem at this
        simp only [icModify] at this
        simp [h2, this]
    · rw [if_neg h1, icFind_cons, icFind_cons]
      by_cases h2 : e.1 = k
      · simp [h2]
      · have := ih
        unfold icMem at this
        simp only [icModify] at this
        simp [h2, this]

theorem icMem_makeIteratorPrime (s : Sess) (pred : StartPred) (cmp : Cmp) (mv : Mv) (k : K)
    (h : icMem s.cur.itCache k) : icMem (makeIteratorPrime s pred cmp mv).1 k := by
  unfold makeIteratorPrime
  cases hsk : scanKey s pred cmp mv with
  | none => exact h
  | some ck =>
    dsimp only
    have h2 : icMem (icTryEmplace s.cur.itCache ck) k := (icMem_tryEmplace _ _ _).mpr (Or.inr h)
    split <;> exact h2

theorem icMem_boundsImpl (s : Sess) (k' k : K) (h : icMem s.cur.itCache k) :
    icMem (boundsImpl s k').2 k := by
  unfold boundsImpl
  exact icMem_makeIteratorPrime _ _ _ _ _
    (icMem_makeIteratorPrime _ _ _ _ _ (icMem_makeIteratorPrime _ _ _ _ _ h))

theorem icMem_update_self (s : Sess) (k : K) (p : ICParams) :
    icMem (updateIteratorCacheF s k p) k := by
  unfold updateIteratorCacheF
  have h0 : icMem (icTryEmplace s.cur.itCache k) k := (icMem_tryEmplace _ _ _).mpr (Or.inl rfl)
  by_cases hp : p.primeOnly = true
  · simp only [hp, if_true]
    exact h0
  · have hp' : p.primeOnly = false := by
      cases hpo : p.primeOnly
      · rfl
      · exact absurd hpo hp
    simp only [hp', Bool.false_eq_true, if_false]
    set ic1 := if p.overwrite then icModify (icTryEmplace s.cur.itCache k) k
        (fun st => {st with deleted := p.markDeleted}) else icTryEmplace s.cur.itCache k with hic1
    have h1 : icMem ic1 k := by
      rw [hic1]
      by_cases ho : p.overwrite = true
      · simp only [ho, if_true]
        exact (icMem_modify _ _ _ _).mpr h0
      · have ho' : p.overwrite = false := by
          cases hoo : p.overwrite
          · rfl
          · exact absurd hoo ho
        simp only [ho', Bool.false_eq_true, if_false]
        exact h0
    by_cases hb : (!p.recalculate &&
        ((icFind ic1 k).getD {}).nextInCache && ((icFind ic1 k).getD {}).previousInCache) = true
    · simp only [hb, if_true]
      exact h1
    · have hb' : (!p.recalculate && ((icFind ic1 k).getD {}).nextInCache &&
          ((icFind ic1 k).getD {}).previousInCache) = false := by
        cases hbb : (!p.recalculate && ((icFind ic1 k).getD {}).nextInCache &&
            ((icFind ic1 k).getD {}).previousInCache)
        · rfl
        · exact absurd hbb hb
      simp only [hb', Bool.false_eq_true, if_false]
      have h2 : icMem (boundsImpl (setIC s ic1) k).2 k := icMem_boundsImpl _ _ _ h1
      set r := boundsImpl (setIC s ic1) k with hr
      have h3 : icMem (match r.1.1 with
          | none => r.2
          | some lk =>
            icModify (icModify (icTryEmplace r.2 lk) lk (fun st => {st with nextInCache := true}))
              k (fun st => {st with previousInCache := true})) k := by
        cases r.1.1 with
        | none => exact h2
        | some lk =>
          exact (icMem_modify _ _ _ _).mpr
            ((icMem_modify _ _ _ _).mpr ((icMem_tryEmplace _ _ _).mpr (Or.inr h2)))
      cases r.1.2 with
      | none => exact h3
      | some hk =>
        exact (icMem_modify _ _ _ _).mpr
          ((icMem_modify _ _ _ _).mpr ((icMem_tryEmplace _ _ _).mpr (Or.inr h3)))

/-!
Characterisation of `session::read` and claim C1.
-/

theorem readImpl_fst (s : Sess) (k : K) :
    (readImpl s k).1 =
      match layersLookup (s.cur :: s.anc) k with
      | .tomb => none
      | .found _ v => some (k, v)
      | .miss => (s.backing.bind (fun b => storeRead b k)).map (fun v => (k, v)) := by
  unfold readImpl
  cases h : layersLookup (s.cur :: s.anc) k with
  | tomb => rfl
  | found d v => cases d <;> rfl
  | miss =>
    cases hb : s.backing with
    | none => rfl
    | some b => cases hr : storeRead b k <;> simp [hr]

theorem readImpl_fst_merged (s : Sess) (k : K) :
    (readImpl s k).1 = (mergedValue s k).map (fun v => (k, v)) := by
  rw [readImpl_fst]
  unfold mergedValue
  rw [specWalk_eq_layersLookup]
  cases layersLookup (s.cur :: s.anc) k <;> simp

/-- The overlay-caching effect of `session::read`. -/
theorem read_caches_result (s : Sess) (k : K) (v : V)
    (hv : (readImpl s k).1 = some (k, v)) :
    storeRead ((readImpl s k).2).cur.cache k = some v := by
  cases hl : layersLookup (s.cur :: s.anc) k with
  | tomb =>
    simp only [readImpl, hl] at hv
    exact Option.noConfusion hv
  | found d v0 =>
    cases d with
    | zero =>
      simp only [readImpl, hl] at hv ⊢
      simp only [Option.some.injEq, Prod.mk.injEq, true_and] at hv
      rw [← hv]
      exact layersLookup_cons_found_zero _ _ _ _ hl
    | succ d =>
      simp only [readImpl, hl] at hv ⊢
      simp only [Option.some.injEq, Prod.mk.injEq, true_and] at hv
      rw [← hv]
      show storeRead (storeWrite s.cur.cache k v0) k = some v0
      rw [storeRead_storeWrite, if_pos rfl]
  | miss =>
    cases hb : s.backing with
    | none =>
      simp only [readImpl, hl, hb] at hv
      exact Option.noConfusion hv
    | some b =>
      cases hr : storeRead b k with
      | none =>
        simp only [readImpl, hl, hb, hr] at hv
        exact Option.noConfusion hv
      | some v0 =>
        simp only [readImpl, hl, hb, hr] at hv ⊢
        simp only [Option.some.injEq, Prod.mk.injEq, true_and] at hv
        rw [← hv]
        show storeRead (storeWrite s.cur.cache k v0) k = some v0
        rw [storeRead_storeWrite, if_pos rfl]

theorem read_refreshes_iterator_cache (s : Sess) (k : K) (v : V)
    (hv : (readImpl s k).1 = some (k, v)) (hown : storeRead s.cur.cache k = none) :
    icMem ((readImpl s k).2).cur.itCache k := by
  cases hl : layersLookup (s.cur :: s.anc) k with
  | tomb =>
    simp only [readImpl, hl] at hv
    exact Option.noConfusion hv
  | found d v0 =>
    cases d with
    | zero =>
      have := layersLookup_cons_found_zero _ _ _ _ hl
      rw [hown] at this
      cases this
    | succ d =>
      simp only [readImpl, hl]
      show icMem (updateIteratorCacheF
        {s with cur := {s.cur with cache := storeWrite s.cur.cache k v0}} k
        ⟨false, true, false, false⟩) k
      exact icMem_update_self _ _ _
  | miss =>
    cases hb : s.backing with
    | none =>
      simp only [readImpl, hl, hb] at hv
      exact Option.noConfusion hv
    | some b =>
      cases hr : storeRead b k with
      | none =>
        simp only [readImpl, hl, hb, hr] at hv
        exact Option.noConfusion hv
      | some v0 =>
        simp only [readImpl, hl, hb, hr]
        show icMem (updateIteratorCacheF
          {cur := {s.cur with cache := storeWrite s.cur.cache k v0},
           anc := s.anc, desc := s.desc, backing := some b} k
          ⟨false, true, false, false⟩) k
        exact icMem_update_self _ _ _

theorem read_invalid_no_change (s : Sess) (k : K)
    (hv : (readImpl s k).1 = none) : (readImpl s k).2 = s := by
  cases hl : layersLookup (s.cur :: s.anc) k with
  | tomb => simp only [readImpl, hl]
  | found d v0 =>
    cases d with
    | zero => simp only [readImpl, hl]
    | succ d =>
      simp only [readImpl, hl] at hv
      exact Option.noConfusion hv
  | miss =>
    cases hb : s.backing with
    | none => simp only [readImpl, hl, hb]
    | some b =>
      cases hr : storeRead b k with
      | none => simp only [readImpl, hl, hb, hr]
      | some v0 =>
        simp only [readImpl, hl, hb, hr] at hv
        exact Option.noConfusion hv

/-- C1: for every session S and key K, `read(K)` returns the merged-view
value of K (the walk from S toward the root: a tombstone hit yields the
invalid sentinel, otherwise the first overlay hit yields that value,
otherwise the backing store, otherwise invalid); whenever a value is
returned it is present in S's overlay afterwards; when the hit did not
come from S's own overlay, S's neighbour (iterator) cache afterwards holds
an entry for K; and a read that returns the invalid sentinel leaves S's
state unchanged. -/
theorem read_merged_view (s : Sess) (k : K) :
    (readImpl s k).1 = (mergedValue s k).map (fun v => (k, v)) ∧
    (∀ v, (readImpl s k).1 = some (k, v) →
      storeRead ((readImpl s k).2).cur.cache k = some v) ∧
    (∀ v, (readImpl s k).1 = some (k, v) → storeRead s.cur.cache k = none →
      icMem ((readImpl s k).2).cur.itCache k) ∧
    ((readImpl s k).1 = none → (readImpl s k).2 = s) :=
  ⟨readImpl_fst_merged s k,
   fun v hv => read_caches_result s k v hv,
   fun v hv hown => read_refreshes_iterator_cache s k v hv hown,
   fun hv => read_invalid_no_change s k hv⟩

/-- Witness for C1 at a session whose parent overlay holds key 5: the read
returns the ancestor value, caches it in the tip overlay and records the
key in the tip's iterator cache. -/
theorem read_merged_view_witness :
    (readImpl c1w 5).1 = some (5, 50) ∧
    storeRead ((readImpl c1w 5).2).cur.cache 5 = some 50 ∧
    icMem ((readImpl c1w 5).2).cur.itCache 5 := by
  have h := read_merged_view c1w 5
  refine ⟨?_, ?_, ?_⟩
  · rw [h.1]; decide
  · exact h.2.1 50 (by rw [h.1]; decide)
  · exact h.2.2.1 50 (by rw [h.1]; decide) (by decide)

/-!
Per-key effect of the erase and write phases of commit.
-/

theorem sessErase_proj (s : Sess) (k : K) :
    (sessErase s k).cur.updated = eraseKey s.cur.updated k ∧
    (sessErase s k).cur.deleted = insertKey s.cur.deleted k ∧
    (sessErase s k).cur.cache = storeEraseKey s.cur.cache k ∧
    (sessErase s k).anc = s.anc ∧ (sessErase s k).desc = s.desc ∧
    (sessErase s k).backing = s.backing :=
  ⟨rfl, rfl, rfl, rfl, rfl, rfl⟩

theorem sessWrite_proj (s : Sess) (kv : K × V) :
    (sessWrite s kv).cur.updated = insertKey s.cur.updated kv.1 ∧
    (sessWrite s kv).cur.deleted = eraseKey s.cur.deleted kv.1 ∧
    (sessWrite s kv).cur.cache = storeWrite s.cur.cache kv.1 kv.2 ∧
    (sessWrite s kv).anc = s.anc ∧ (sessWrite s kv).desc = s.desc ∧
    (sessWrite s kv).backing = s.backing :=
  ⟨rfl, rfl, rfl, rfl, rfl, rfl⟩

theorem foldErase_facts (ks : List K) (s : Sess) (k : K) :
    (k ∈ (ks.foldl sessErase s).cur.deleted ↔ k ∈ ks ∨ k ∈ s.cur.deleted) ∧
    (k ∈ (ks.foldl sessErase s).cur.updated ↔ k ∉ ks ∧ k ∈ s.cur.updated) ∧
    (storeRead (ks.foldl sessErase s).cur.cache k =
      if k ∈ ks then none else storeRead s.cur.cache k) ∧
    (ks.foldl sessErase s).anc = s.anc ∧
    (ks.foldl sessErase s).desc = s.desc ∧
    (ks.foldl sessErase s).backing = s.backing := by
  induction ks generalizing s with
  | nil => simp
  | cons a ks ih =>
    simp only [List.foldl_cons]
    obtain ⟨ih1, ih2, ih3, ih4, ih5, ih6⟩ := ih (sessErase s a)
    obtain ⟨p1, p2, p3, p4, p5, p6⟩ := sessErase_proj s a
    refine ⟨?_, ?_, ?_, ?_, ?_, ?_⟩
    · rw [ih1, p2, mem_insertKey, List.mem_cons]
      tauto
    · rw [ih2, p1, mem_eraseKey, List.mem_cons]
      tauto
    · rw [ih3, p3, storeRead_storeEraseKey]
      by_cases h1 : k ∈ ks
      · simp [h1, List.mem_cons]
      · by_cases h2 : k = a <;> simp [h1, h2, List.mem_cons]
    · rw [ih4, p4]
    · rw [ih5, p5]
    · rw [ih6, p6]

theorem foldWrite_facts (es : List (K × V)) (s : Sess) (k : K) :
    (k ∈ (es.foldl sessWrite s).cur.updated ↔ (∃ v, (k, v) ∈ es) ∨ k ∈ s.cur.updated) ∧
    (k ∈ (es.foldl sessWrite s).cur.deleted ↔ (∀ v, (k, v) ∉ es) ∧ k ∈ s.cur.deleted) ∧
    (storeRead (es.foldl sessWrite s).cur.cache k =
      match lookupLast es k with
      | some v => some v
      | none => storeRead s.cur.cache k) ∧
    (es.foldl sessWrite s).anc = s.anc ∧
    (es.foldl sessWrite s).desc = s.desc ∧
    (es.foldl sessWrite s).backing = s.backing := by
  induction es generalizing s with
  | nil => simp [lookupLast]
  | cons e es ih =>
    simp only [List.foldl_cons]
    obtain ⟨ih1, ih2, ih3, ih4, ih5, ih6⟩ := ih (sessWrite s e)
    obtain ⟨p1, p2, p3, p4, p5, p6⟩ := sessWrite_proj s e
    refine ⟨?_, ?_, ?_, ?_, ?_, ?_⟩
    · rw [ih1, p1, mem_insertKey]
      constructor
      · rintro (⟨v, hv⟩ | (h | h))
        · exact Or.inl ⟨v, List.mem_cons_of_mem _ hv⟩
        · exact Or.inr h
        · subst h
          exact Or.inl ⟨e.2, List.mem_cons_self _ _⟩
      · rintro (⟨v, hv⟩ | h)
        · rcases List.mem_cons.mp hv with h1 | h1
          · right; right
            exact congrArg Prod.fst h1
          · exact Or.inl ⟨v, h1⟩
        · exact Or.inr (Or.inl h)
    · rw [ih2, p2, mem_eraseKey]
      constructor
      · rintro ⟨hall, hdel, hne⟩
        refine ⟨fun v hv => ?_, hdel⟩
        rcases List.mem_cons.mp hv with h1 | h1
        · exact hne (congrArg Prod.fst h1)
        · exact hall v h1
      · rintro ⟨hall, hdel⟩
        refine ⟨fun v hv => hall v (List.mem_cons_of_mem _ hv), hdel, fun hk => ?_⟩
        subst hk
        exact hall e.2 (by exact List.mem_cons_self _ _)
    · rw [ih3, p3, storeRead_storeWrite]
      show _ = match lookupLast (e :: es) k with
        | some v => some v
        | none => storeRead s.cur.cache k
      simp only [lookupLast]
      cases hll : lookupLast es k with
      | some v => rfl
      | none =>
        by_cases hk : k = e.1
        · rw [hk]
          simp
        · have hk' : ¬ e.1 = k := fun hh => hk hh.symm
          simp [hk, hk']
    · rw [ih4, p4]
    · rw [ih5, p5]
    · rw [ih6, p6]

theorem mem_commitEntries (l : Layer) (k : K) (v : V) :
    (k, v) ∈ commitEntries l ↔ k ∈ l.updated ∧ storeRead l.cache k = some v := by
  simp only [commitEntries, List.mem_filterMap, Option.map_eq_some']
  constructor
  · rintro ⟨a, ha, w, hw, heq⟩
    injection heq with h1 h2
    subst h1
    subst h2
    exact ⟨ha, hw⟩
  · rintro ⟨h1, h2⟩
    exact ⟨k, h1, v, h2, rfl⟩

theorem lookupLast_filterMap_store (st : Store) (u : List K) (k : K) :
    lookupLast (u.filterMap (fun a => (storeRead st a).map (fun v => (a, v)))) k =
      if k ∈ u ∧ (storeRead st k).isSome = true then storeRead st k else none := by
  induction u with
  | nil => simp [lookupLast]
  | cons a u ih =>
    simp only [List.filterMap_cons]
    cases hsr : storeRead st a with
    | none =>
      simp only [Option.map_none']
      rw [ih]
      by_cases hc : (storeRead st k).isSome = true
      · by_cases hu : k ∈ u
        · rw [if_pos ⟨hu, hc⟩, if_pos ⟨List.mem_cons_of_mem _ hu, hc⟩]
        · have hk : ¬ k = a := fun hh => by
            rw [hh] at hc
            rw [hsr] at hc
            cases hc
          have hn : ¬ (k ∈ a :: u ∧ (storeRead st k).isSome = true) := by
            rintro ⟨h1, -⟩
            rcases List.mem_cons.mp h1 with h3 | h3
            · exact hk h3
            · exact hu h3
          rw [if_neg (fun h => hu h.1), if_neg hn]
      · rw [if_neg (fun h => hc h.2), if_neg (fun h => hc h.2)]
    | some w =>
      simp only [Option.map_some']
      simp only [lookupLast]
      rw [ih]
      by_cases hcond : k ∈ u ∧ (storeRead st k).isSome = true
      · rw [if_pos hcond]
        obtain ⟨val, hval⟩ := Option.isSome_iff_exists.mp hcond.2
        rw [hval]
        show some val = _
        rw [if_pos (show k ∈ a :: u ∧ (some val : Option V).isSome = true from
          ⟨List.mem_cons_of_mem _ hcond.1, rfl⟩)]
      · rw [if_neg hcond]
        show (if a = k then some w else none) = _
        by_cases hk : a = k
        · have hsk : storeRead st k = some w := by rw [← hk]; exact hsr
          have hc2 : k ∈ a :: u ∧ (storeRead st k).isSome = true :=
            ⟨by rw [← hk]; exact List.mem_cons_self _ _, by rw [hsk]; rfl⟩
          rw [if_pos hc2, hsk, if_pos hk]
        · have hnc : ¬ (k ∈ a :: u ∧ (storeRead st k).isSome = true) := by
            rintro ⟨h1, h2⟩
            rcases List.mem_cons.mp h1 with h3 | h3
            · exact hk h3.symm
            · exact hcond ⟨h3, h2⟩
          rw [if_neg hnc, if_neg hk]

theorem lookupLast_commitEntries (l : Layer) (k : K) :
    lookupLast (commitEntries l) k =
      if liveUpd l k then storeRead l.cache k else none := by
  unfold commitEntries liveUpd
  exact lookupLast_filterMap_store l.cache l.updated k

theorem not_mem_commitEntries_iff (l : Layer) (k : K) :
    (∀ v, (k, v) ∉ commitEntries l) ↔ ¬ liveUpd l k := by
  constructor
  · intro h hl
    obtain ⟨hu, hs⟩ := hl
    obtain ⟨val, hval⟩ := Option.isSome_iff_exists.mp hs
    exact h val ((mem_commitEntries l k val).mpr ⟨hu, hval⟩)
  · intro h v hv
    obtain ⟨hu, hval⟩ := (mem_commitEntries l k v).mp hv
    exact h ⟨hu, by rw [hval]; rfl⟩

theorem exists_mem_commitEntries_iff (l : Layer) (k : K) :
    (∃ v, (k, v) ∈ commitEntries l) ↔ liveUpd l k := by
  constructor
  · rintro ⟨v, hv⟩
    obtain ⟨hu, hval⟩ := (mem_commitEntries l k v).mp hv
    exact ⟨hu, by rw [hval]; rfl⟩
  · rintro ⟨hu, hs⟩
    obtain ⟨val, hval⟩ := Option.isSome_iff_exists.mp hs
    exact ⟨val, (mem_commitEntries l k val).mpr ⟨hu, hval⟩⟩

theorem commitImpl_parent (s : Sess) (p : Layer) (rest : List Layer)
    (hanc : s.anc = p :: rest) (hne : ¬(s.cur.updated = [] ∧ s.cur.deleted = [])) :
    commitImpl s =
      ⟨emptyLayer,
       ((commitEntries s.cur).foldl sessWrite
         (s.cur.deleted.foldl sessErase ⟨p, rest, s.cur :: s.desc, s.backing⟩)).cur ::
       ((commitEntries s.cur).foldl sessWrite
         (s.cur.deleted.foldl sessErase ⟨p, rest, s.cur :: s.desc, s.backing⟩)).anc,
       s.desc,
       ((commitEntries s.cur).foldl sessWrite
         (s.cur.deleted.foldl sessErase ⟨p, rest, s.cur :: s.desc, s.backing⟩)).backing⟩ := by
  unfold commitImpl
  rw [if_neg (fun h => by rw [hanc] at h; cases h.1), if_neg hne, hanc]

theorem commitImpl_root (s : Sess) (b : Store)
    (hanc : s.anc = []) (hb : s.backing = some b)
    (hne : ¬(s.cur.updated = [] ∧ s.cur.deleted = [])) :
    commitImpl s = ⟨emptyLayer, [], s.desc,
      some (storeWriteBatch (storeEraseKeys b s.cur.deleted) (commitEntries s.cur))⟩ := by
  unfold commitImpl
  rw [if_neg (fun h => by rw [hb] at h; cases h.2), if_neg hne, hanc, hb]

/-- C2 (amended): for a layer with at least one authored update or
tombstone and a destination (a parent, or the backing store at the root),
commit erases the deleted keys from the destination, then writes exactly
the overlay entries whose keys are in the updated set, and afterwards the
layer's local state is empty; the claim's further assertion — that the
layer is also emptied when it holds only read-through cached overlay
entries and no authored updates or tombstones — fails: such a commit is a
no-op (see the counterexample). -/
theorem commit_writes_through (s : Sess) (k : K)
    (hne : ¬(s.cur.updated = [] ∧ s.cur.deleted = [])) :
    (s.anc ≠ [] ∨ s.backing ≠ none →
      (commitImpl s).cur = emptyLayer ∧ (commitImpl s).desc = s.desc) ∧
    (∀ p rest, s.anc = p :: rest →
      (commitImpl s).anc.tail = rest ∧
      (commitImpl s).backing = s.backing ∧
      (k ∈ (commitParent s).deleted ↔
        ¬ liveUpd s.cur k ∧ (k ∈ s.cur.deleted ∨ k ∈ p.deleted)) ∧
      (k ∈ (commitParent s).updated ↔
        liveUpd s.cur k ∨ (k ∉ s.cur.deleted ∧ k ∈ p.updated)) ∧
      (storeRead (commitParent s).cache k =
        if liveUpd s.cur k then storeRead s.cur.cache k
        else if k ∈ s.cur.deleted then none else storeRead p.cache k)) ∧
    (∀ b, s.anc = [] → s.backing = some b →
      (commitImpl s).backing.isSome = true ∧
      storeRead ((commitImpl s).backing.getD []) k =
        if liveUpd s.cur k then storeRead s.cur.cache k
        else if k ∈ s.cur.deleted then none else storeRead b k) := by
  refine ⟨?_, ?_, ?_⟩
  · intro h
    cases hanc : s.anc with
    | cons p rest =>
      rw [commitImpl_parent s p rest hanc hne]
      exact ⟨rfl, rfl⟩
    | nil =>
      cases hb : s.backing with
      | none =>
        rcases h with h | h
        · exact absurd hanc h
        · exact absurd hb h
      | some b =>
        rw [commitImpl_root s b hanc hb hne]
        exact ⟨rfl, rfl⟩
  · intro p rest hanc
    have hred := commitImpl_parent s p rest hanc hne
    obtain ⟨he1, he2, he3, he4, he5, he6⟩ :=
      foldErase_facts s.cur.deleted ⟨p, rest, s.cur :: s.desc, s.backing⟩ k
    obtain ⟨hw1, hw2, hw3, hw4, hw5, hw6⟩ :=
      foldWrite_facts (commitEntries s.cur)
        (s.cur.deleted.foldl sessErase ⟨p, rest, s.cur :: s.desc, s.backing⟩) k
    have hparent : commitParent s =
        ((commitEntries s.cur).foldl sessWrite
          (s.cur.deleted.foldl sessErase ⟨p, rest, s.cur :: s.desc, s.backing⟩)).cur := by
      unfold commitParent
      rw [hred]
      rfl
    refine ⟨?_, ?_, ?_, ?_, ?_⟩
    · rw [hred]
      show ((commitEntries s.cur).foldl sessWrite
        (s.cur.deleted.foldl sessErase ⟨p, rest, s.cur :: s.desc, s.backing⟩)).anc = rest
      rw [hw4, he4]
    · rw [hred]
      show ((commitEntries s.cur).foldl sessWrite
        (s.cur.deleted.foldl sessErase ⟨p, rest, s.cur :: s.desc, s.backing⟩)).backing = s.backing
      rw [hw6, he6]
    · rw [hparent, hw2, he1, not_mem_commitEntries_iff]
    · rw [hparent, hw1, he2]
      constructor
      · rintro (h | h)
        · exact Or.inl ((exists_mem_commitEntries_iff s.cur k).mp h)
        · exact Or.inr ⟨h.1, h.2⟩
      · rintro (h | h)
        · exact Or.inl ((exists_mem_commitEntries_iff s.cur k).mpr h)
        · exact Or.inr ⟨h.1, h.2⟩
    · rw [hparent, hw3, lookupLast_commitEntries, he3]
      by_cases hl : liveUpd s.cur k
      · rw [if_pos hl]
        obtain ⟨val, hval⟩ := Option.isSome_iff_exists.mp hl.2
        rw [hval, if_pos hl]
      · rw [if_neg hl, if_neg hl]
  · intro b hanc hb
    have hred := commitImpl_root s b hanc hb hne
    rw [hred]
    refine ⟨rfl, ?_⟩
    show storeRead (storeWriteBatch (storeEraseKeys b s.cur.deleted) (commitEntries s.cur)) k = _
    rw [storeRead_storeWriteBatch, lookupLast_commitEntries, storeRead_storeEraseKeys]
    by_cases hl : liveUpd s.cur k
    · rw [if_pos hl]
      obtain ⟨val, hval⟩ := Option.isSome_iff_exists.mp hl.2
      rw [hval, if_pos hl]
    · rw [if_neg hl, if_neg hl]

/-- Witness for C2 at a two-layer chain: committing a tip that authored
key 1, cached key 2 and tombstoned key 3 into a parent that had authored
key 3. -/
theorem commit_writes_through_witness :
    1 ∈ (commitParent c2w).updated ∧ 1 ∉ (commitParent c2w).deleted ∧
    storeRead (commitParent c2w).cache 1 = some 10 ∧
    3 ∈ (commitParent c2w).deleted ∧ 3 ∉ (commitParent c2w).updated ∧
    (commitImpl c2w).cur = emptyLayer := by
  have h1 := commit_writes_through c2w 1 (by decide)
  have h3 := commit_writes_through c2w 3 (by decide)
  have hp : c2w.anc = (⟨[(3, 30)], [], [3], []⟩ : Layer) :: [] := rfl
  obtain ⟨-, -, hd1, hu1, hc1⟩ := h1.2.1 _ _ hp
  obtain ⟨-, -, hd3, hu3, -⟩ := h3.2.1 _ _ hp
  refine ⟨?_, ?_, ?_, ?_, ?_, ?_⟩
  · exact hu1.mpr (Or.inl (by decide))
  · intro hmem
    exact absurd (hd1.mp hmem) (by decide)
  · rw [hc1]
    decide
  · exact hd3.mpr (by decide)
  · intro hmem
    exact absurd (hu3.mp hmem) (by decide)
  · exact (h1.1 (Or.inl (by decide))).1

/-- C2 counterexample: a layer holding only a read-through cached overlay
entry (no authored updates, no tombstones) over a parent is not emptied by
commit — the commit is a no-op and the overlay entry survives. -/
theorem commit_counterexample_readthrough_not_cleared :
    c2s.cur.updated = [] ∧ c2s.cur.deleted = [] ∧ c2s.anc ≠ [] ∧
    (commitImpl c2s).cur.cache = [(1, 10)] := by
  refine ⟨rfl, rfl, by decide, by decide⟩

/-- C3 (code bug): with a tombstone on key 1 in the tip and key 1 present
in the backing store, the merged view hides the key (single-key read
returns the invalid sentinel), yet batch read returns the backing value
for it, reports nothing missing, and writes the value into the tip
overlay — the per-key walk computes its tombstone flag but never uses it,
so tombstoned keys join the not-found set that is fetched from the
backing store. -/
theorem batch_read_fetches_tombstoned :
    mergedValue c3s 1 = none ∧
    (readImpl c3s 1).1 = none ∧
    (batchReadImpl c3s [1]).1 = ([(1, 10)], []) ∧
    storeRead ((batchReadImpl c3s [1]).2).cur.cache 1 = some 10 := by
  decide

theorem wtWalk_eq_specWalk (ls : List Layer) (k : K) :
    wtWalk ls k = (specWalk ls k).bind id := by
  induction ls with
  | nil => rfl
  | cons l ls ih =>
    simp only [wtWalk, specWalk]
    by_cases h : k ∈ l.deleted
    · simp [h]
    · simp only [if_neg h]
      cases hr : storeRead l.cache k with
      | some v => rfl
      | none => exact ih

/-- C4 (amended): `write_to(D, keys)` copies, for each key, the value of
the first layer from S toward the root whose overlay holds the key,
skipping keys tombstoned at or before that layer and keys absent from
every overlay; the backing store is never consulted, so values present
only in the backing store are not copied. -/
theorem write_to_layers_only (s : Sess) (ds : Store) (keys : List K) :
    writeToImpl s ds keys =
      storeWriteBatch ds (keys.filterMap (fun k =>
        ((specWalk (s.cur :: s.anc) k).bind id).map (fun v => (k, v)))) ∧
    (∀ b', writeToImpl {s with backing := b'} ds keys = writeToImpl s ds keys) := by
  constructor
  · unfold writeToImpl
    have harg : (fun k => (wtWalk (s.cur :: s.anc) k).map (fun v => (k, v))) =
        fun k => ((specWalk (s.cur :: s.anc) k).bind id).map (fun v => (k, v)) := by
      funext k
      rw [wtWalk_eq_specWalk]
    rw [harg]
  · intro b'
    rfl

/-- C4 counterexample: key 1 lives only in the backing store, so its
merged value is 10, yet `write_to` hands the destination nothing. -/
theorem write_to_misses_backing_value :
    writeToImpl c4s [] [1] = [] ∧ mergedValue c4s 1 = some 10 := by
  decide

/-- C5 (code bug): with backing store {1 ↦ 10} and an empty root overlay,
the merged view's greatest key is 1, so the claim requires
`bounds(2) = (1, invalid)`; the `lower` lambda returns `end` when
`lower_bound(key)` is `end` instead of stepping back to the last entry, so
the code returns (invalid, invalid). -/
theorem bounds_misses_predecessor_above_max :
    (boundsImpl c5s 2).1 = (none, none) ∧ mergedValue c5s 1 = some 10 := by
  decide

/-- C6 (code bug): on a session whose merged view holds keys 1 and 2 (live
entries, so `begin ≠ end`), the end iterator is the end position of the
iterator cache; incrementing it dereferences that end position — undefined
behaviour, not the documented wrap to `begin()` — while incrementing the
active iterator at the greatest cached key 2 does wrap around to the first
cached entry 1. -/
theorem iterator_increment_end_dereferences :
    (endIter c6s).2 = none ∧
    moveNextLoop c6s none 10 = .ub ∧
    (moveNextLoop c6s (some 2) 10).pos? = some (some 1) ∧
    icFirstKey c6s.cur.itCache = some 1 ∧
    mergedValue c6s 1 = some 10 ∧ mergedValue c6s 2 = some 20 := by
  decide

/-!
Frame lemmas: the tip operations touch only the tip layer's overlay and
iterator cache.
-/

theorem readImpl_frame (s : Sess) (k : K) :
    (readImpl s k).2.anc = s.anc ∧ (readImpl s k).2.desc = s.desc ∧
    (readImpl s k).2.backing = s.backing ∧
    (readImpl s k).2.cur.updated = s.cur.updated ∧
    (readImpl s k).2.cur.deleted = s.cur.deleted := by
  cases hl : layersLookup (s.cur :: s.anc) k with
  | tomb =>
    simp only [readImpl, hl]
    refine ⟨?_, ?_, ?_, ?_, ?_⟩ <;> trivial
  | found d v0 =>
    cases d with
    | zero =>
      simp only [readImpl, hl]
      refine ⟨?_, ?_, ?_, ?_, ?_⟩ <;> trivial
    | succ d =>
      simp only [readImpl, hl]
      refine ⟨?_, ?_, ?_, ?_, ?_⟩ <;> trivial
  | miss =>
    cases hb : s.backing with
    | none =>
      simp only [readImpl, hl, hb]
      refine ⟨?_, ?_, ?_, ?_, ?_⟩ <;> trivial
    | some b =>
      cases hr : storeRead b k with
      | none =>
        simp only [readImpl, hl, hb, hr]
        refine ⟨?_, ?_, ?_, ?_, ?_⟩ <;> trivial
      | some v0 =>
        simp only [readImpl, hl, hb, hr]
        refine ⟨?_, ?_, ?_, ?_, ?_⟩ <;> trivial

theorem containsImpl_frame (s : Sess) (k : K) :
    (containsImpl s k).2.anc = s.anc ∧ (containsImpl s k).2.desc = s.desc ∧
    (containsImpl s k).2.backing = s.backing ∧
    (containsImpl s k).2.cur.updated = s.cur.updated ∧
    (containsImpl s k).2.cur.deleted = s.cur.deleted ∧
    (containsImpl s k).2.cur.cache = s.cur.cache := by
  cases hl : layersLookup (s.cur :: s.anc) k with
  | tomb =>
    simp only [containsImpl, hl]
    refine ⟨?_, ?_, ?_, ?_, ?_, ?_⟩ <;> trivial
  | found d v0 =>
    cases hb : s.backing with
    | none =>
      simp only [containsImpl, hl, hb]
      refine ⟨?_, ?_, ?_, ?_, ?_, ?_⟩ <;> trivial
    | some b =>
      simp only [containsImpl, hl, hb]
      refine ⟨?_, ?_, ?_, ?_, ?_, ?_⟩ <;> trivial
  | miss =>
    cases hb : s.backing with
    | none =>
      simp only [containsImpl, hl, hb]
      refine ⟨?_, ?_, ?_, ?_, ?_, ?_⟩ <;> trivial
    | some b =>
      simp only [containsImpl, hl, hb]
      refine ⟨?_, ?_, ?_, ?_, ?_, ?_⟩ <;> trivial

theorem containsImpl_fst (s : Sess) (k : K) :
    (containsImpl s k).1 =
      match layersLookup (s.cur :: s.anc) k, s.backing with
      | .tomb, _ => some false
      | .found _ _, none => none
      | .found _ _, some _ => some true
      | .miss, none => none
      | .miss, some b => some (storeContains b k) := by
  cases hl : layersLookup (s.cur :: s.anc) k <;>
    cases hb : s.backing <;>
      simp only [containsImpl, hl, hb]

theorem applyTipOp_frame (s : Sess) (op : TipOp) :
    (applyTipOp s op).anc = s.anc ∧ (applyTipOp s op).desc = s.desc ∧
    (applyTipOp s op).backing = s.backing := by
  cases op with
  | wr k v => exact ⟨rfl, rfl, rfl⟩
  | er k => exact ⟨rfl, rfl, rfl⟩
  | rd k =>
    obtain ⟨h1, h2, h3, -, -⟩ := readImpl_frame s k
    exact ⟨h1, h2, h3⟩
  | ct k =>
    obtain ⟨h1, h2, h3, -, -, -⟩ := containsImpl_frame s k
    exact ⟨h1, h2, h3⟩
  | clr => exact ⟨rfl, rfl, rfl⟩

theorem applyTipOps_frame (ops : List TipOp) (s : Sess) :
    (applyTipOps ops s).anc = s.anc ∧ (applyTipOps ops s).desc = s.desc ∧
    (applyTipOps ops s).backing = s.backing := by
  induction ops generalizing s with
  | nil => exact ⟨rfl, rfl, rfl⟩
  | cons op ops ih =>
    obtain ⟨i1, i2, i3⟩ := ih (applyTipOp s op)
    obtain ⟨f1, f2, f3⟩ := applyTipOp_frame s op
    have hstep : applyTipOps (op :: ops) s = applyTipOps ops (applyTipOp s op) := rfl
    rw [hstep]
    exact ⟨i1.trans f1, i2.trans f2, i3.trans f3⟩

/-- C7: for any parent chain and any sequence of tip-local operations
(write, erase, read, contains, clear) performed through a tip nested on
it, undoing the tip clears the tip's parent, child, backing reference,
overlay, key sets and iterator cache, reconnects the parent's child link
past the tip, and leaves the parent's merged view — the results of `read`
and `contains` through the parent, for every key — exactly as it was
before the tip was created. -/
theorem undo_discards_parent_view (s0 : Sess) (ops : List TipOp) (k : K) :
    (undoImpl (applyTipOps ops (nestImpl s0))).1 = ⟨emptyLayer, [], [], none⟩ ∧
    (undoImpl (applyTipOps ops (nestImpl s0))).2 =
      some ⟨s0.cur, s0.anc, [], s0.backing⟩ ∧
    (readImpl ⟨s0.cur, s0.anc, [], s0.backing⟩ k).1 = (readImpl s0 k).1 ∧
    (containsImpl ⟨s0.cur, s0.anc, [], s0.backing⟩ k).1 = (containsImpl s0 k).1 := by
  obtain ⟨h1, h2, h3⟩ := applyTipOps_frame ops (nestImpl s0)
  refine ⟨rfl, ?_, ?_, ?_⟩
  · show (match (applyTipOps ops (nestImpl s0)).anc with
      | [] => none
      | p :: rest => some (⟨p, rest, (applyTipOps ops (nestImpl s0)).desc,
          (applyTipOps ops (nestImpl s0)).backing⟩ : Sess)) = _
    rw [h1, h2, h3]
    rfl
  · rw [readImpl_fst, readImpl_fst]
  · rw [containsImpl_fst, containsImpl_fst]

/-!
Preservation of the updated/deleted disjointness invariant (claim C8).
-/

theorem disj_of_frame (s s' : Sess)
    (h1 : s'.anc = s.anc) (h2 : s'.desc = s.desc)
    (h3 : s'.cur.updated = s.cur.updated) (h4 : s'.cur.deleted = s.cur.deleted)
    (h : DisjInv s) : DisjInv s' := by
  intro l hl k hk
  rcases List.mem_cons.mp hl with rfl | hl'
  · rw [h3] at hk
    rw [h4]
    exact h s.cur (List.mem_cons_self _ _) k hk
  · rw [h1, h2] at hl'
    exact h l (List.mem_cons_of_mem _ hl') k hk

theorem disj_sessWrite (s : Sess) (kv : K × V) (h : DisjInv s) :
    DisjInv (sessWrite s kv) := by
  intro l hl k hk
  obtain ⟨p1, p2, -, p4, p5, -⟩ := sessWrite_proj s kv
  rcases List.mem_cons.mp hl with rfl | hl'
  · rw [p2, mem_eraseKey]
    rintro ⟨hdel, hne⟩
    rw [p1, mem_insertKey] at hk
    rcases hk with hk | rfl
    · exact h s.cur (List.mem_cons_self _ _) k hk hdel
    · exact hne rfl
  · rw [p4, p5] at hl'
    exact h l (List.mem_cons_of_mem _ hl') k hk

theorem disj_sessErase (s : Sess) (ke : K) (h : DisjInv s) :
    DisjInv (sessErase s ke) := by
  intro l hl k hk
  obtain ⟨p1, p2, -, p4, p5, -⟩ := sessErase_proj s ke
  rcases List.mem_cons.mp hl with rfl | hl'
  · rw [p2, mem_insertKey]
    rw [p1, mem_eraseKey] at hk
    rintro (hdel | rfl)
    · exact h s.cur (List.mem_cons_self _ _) k hk.1 hdel
    · exact hk.2 rfl
  · rw [p4, p5] at hl'
    exact h l (List.mem_cons_of_mem _ hl') k hk

theorem disj_foldWrite (es : List (K × V)) (s : Sess) (h : DisjInv s) :
    DisjInv (es.foldl sessWrite s) := by
  induction es generalizing s with
  | nil => exact h
  | cons e es ih => exact ih (sessWrite s e) (disj_sessWrite s e h)

theorem disj_foldErase (ks : List K) (s : Sess) (h : DisjInv s) :
    DisjInv (ks.foldl sessErase s) := by
  induction ks generalizing s with
  | nil => exact h
  | cons a ks ih => exact ih (sessErase s a) (disj_sessErase s a h)

theorem batchReadLoop_frame (keys : List K) (s : Sess) (kvs : List (K × V)) (nf : List K) :
    (batchReadLoop s kvs nf keys).1.anc = s.anc ∧
    (batchReadLoop s kvs nf keys).1.desc = s.desc ∧
    (batchReadLoop s kvs nf keys).1.cur.updated = s.cur.updated ∧
    (batchReadLoop s kvs nf keys).1.cur.deleted = s.cur.deleted := by
  induction keys generalizing s kvs nf with
  | nil => exact ⟨rfl, rfl, rfl, rfl⟩
  | cons a keys ih =>
    cases hl : layersLookup (s.cur :: s.anc) a with
    | tomb =>
      simp only [batchReadLoop, hl]
      exact ih s kvs (insertKey nf a)
    | found d v0 =>
      cases d with
      | zero =>
        simp only [batchReadLoop, hl]
        exact ih s (kvs ++ [(a, v0)]) nf
      | succ d =>
        simp only [batchReadLoop, hl]
        exact ih _ (kvs ++ [(a, v0)]) nf
    | miss =>
      simp only [batchReadLoop, hl]
      exact ih s kvs (insertKey nf a)

theorem batchReadImpl_frame (s : Sess) (keys : List K) :
    (batchReadImpl s keys).2.anc = s.anc ∧
    (batchReadImpl s keys).2.desc = s.desc ∧
    (batchReadImpl s keys).2.cur.updated = s.cur.updated ∧
    (batchReadImpl s keys).2.cur.deleted = s.cur.deleted := by
  obtain ⟨l1, l2, l3, l4⟩ := batchReadLoop_frame keys s [] []
  unfold batchReadImpl
  cases hb : (batchReadLoop s [] [] keys).1.backing with
  | none =>
    simp only [hb]
    exact ⟨l1, l2, l3, l4⟩
  | some b =>
    simp only [hb]
    split
    · exact ⟨l1, l2, l3, l4⟩
    · exact ⟨l1, l2, l3, l4⟩

theorem disjInv_of_parts (s : Sess)
    (hcur : ∀ k ∈ s.cur.updated, k ∉ s.cur.deleted)
    (ha : ∀ l ∈ s.anc, ∀ k ∈ l.updated, k ∉ l.deleted)
    (hd : ∀ l ∈ s.desc, ∀ k ∈ l.updated, k ∉ l.deleted) : DisjInv s := by
  intro l hl k hk
  rcases List.mem_cons.mp hl with rfl | hl'
  · exact hcur k hk
  · rcases List.mem_append.mp hl' with h2 | h2
    · exact ha l h2 k hk
    · exact hd l h2 k hk

theorem disj_commitImpl (s : Sess) (h : DisjInv s) : DisjInv (commitImpl s) := by
  by_cases h1 : s.anc = [] ∧ s.backing = none
  · unfold commitImpl
    rw [if_pos h1]
    exact h
  · by_cases h2 : s.cur.updated = [] ∧ s.cur.deleted = []
    · unfold commitImpl
      rw [if_neg h1, if_pos h2]
      exact h
    · cases hanc : s.anc with
      | cons p rest =>
        rw [commitImpl_parent s p rest hanc h2]
        apply disjInv_of_parts
        · intro k hk
          exact absurd hk (List.not_mem_nil k)
        · intro l hl
          rcases List.mem_cons.mp hl with rfl | hl'
          · -- the committed-into parent layer
            intro k hk hdel
            obtain ⟨he1, he2, -, -, -, -⟩ :=
              foldErase_facts s.cur.deleted ⟨p, rest, s.cur :: s.desc, s.backing⟩ k
            obtain ⟨hw1, hw2, -, -, -, -⟩ :=
              foldWrite_facts (commitEntries s.cur)
                (s.cur.deleted.foldl sessErase ⟨p, rest, s.cur :: s.desc, s.backing⟩) k
            obtain ⟨hall, hdel2⟩ := hw2.mp hdel
            rcases hw1.mp hk with hex | hupd
            · exact (not_mem_commitEntries_iff s.cur k).mp hall
                ((exists_mem_commitEntries_iff s.cur k).mp hex)
            · obtain ⟨hnotdel, hupd2⟩ := he2.mp hupd
              rcases he1.mp hdel2 with hd | hd
              · exact hnotdel hd
              · have hpmem : p ∈ s.cur :: (s.anc ++ s.desc) := by
                  rw [hanc]
                  exact List.mem_cons_of_mem _
                    (List.mem_append_left _ (List.mem_cons_self _ _))
                exact h p hpmem k hupd2 hd
          · -- a strict ancestor of the parent
            obtain ⟨-, -, -, hw4, -, -⟩ :=
              foldWrite_facts (commitEntries s.cur)
                (s.cur.deleted.foldl sessErase ⟨p, rest, s.cur :: s.desc, s.backing⟩) 0
            obtain ⟨-, -, -, he4, -, -⟩ :=
              foldErase_facts s.cur.deleted ⟨p, rest, s.cur :: s.desc, s.backing⟩ 0
            rw [hw4, he4] at hl'
            have hrest : l ∈ rest := hl'
            have hmem : l ∈ s.cur :: (s.anc ++ s.desc) := by
              rw [hanc]
              exact List.mem_cons_of_mem _
                (List.mem_append_left _ (List.mem_cons_of_mem _ hrest))
            exact h l hmem
        · intro l hl
          have hmem : l ∈ s.cur :: (s.anc ++ s.desc) :=
            List.mem_cons_of_mem _ (List.mem_append_right _ hl)
          exact h l hmem
      | nil =>
        cases hb : s.backing with
        | none => exact absurd ⟨hanc, hb⟩ h1
        | some b =>
          rw [commitImpl_root s b hanc hb h2]
          apply disjInv_of_parts
          · intro k hk
            exact absurd hk (List.not_mem_nil k)
          · intro l hl
            exact absurd hl (List.not_mem_nil l)
          · intro l hl
            have hmem : l ∈ s.cur :: (s.anc ++ s.desc) :=
              List.mem_cons_of_mem _ (List.mem_append_right _ hl)
            exact h l hmem

theorem disj_applyPubOp (s : Sess) (op : PubOp) (h : DisjInv s) :
    DisjInv (applyPubOp s op) := by
  cases op with
  | wr kv => exact disj_sessWrite s kv h
  | er k => exact disj_sessErase s k h
  | wrB kvs => exact disj_foldWrite kvs s h
  | erB ks => exact disj_foldErase ks s h
  | rd k =>
    obtain ⟨f1, f2, -, f4, f5⟩ := readImpl_frame s k
    exact disj_of_frame s _ f1 f2 f4 f5 h
  | rdB ks =>
    obtain ⟨f1, f2, f3, f4⟩ := batchReadImpl_frame s ks
    exact disj_of_frame s _ f1 f2 f3 f4 h
  | cmt => exact disj_commitImpl s h
  | clr =>
    intro l hl k hk
    rcases List.mem_cons.mp hl with rfl | hl'
    · cases hk
    · exact h l (List.mem_cons_of_mem _ hl') k hk
  | und =>
    intro l hl k hk
    rcases List.mem_cons.mp hl with rfl | hl'
    · cases hk
    · cases hl'

theorem disj_applyPubOps (ops : List PubOp) (s : Sess) (h : DisjInv s) :
    DisjInv (applyPubOps ops s) := by
  induction ops generalizing s with
  | nil => exact h
  | cons op ops ih => exact ih (applyPubOp s op) (disj_applyPubOp s op h)

/-- C8: starting from any state whose layers all keep their updated and
deleted key sets disjoint, no sequence of the public operations — write,
erase, batch write, batch erase, read, batch read, commit, clear, undo —
ever makes a key a member of both sets in any layer; moreover every write
puts the key into the updated set and removes it from the deleted set, and
every erase puts it into the deleted set and removes it from the updated
set. -/
theorem updated_deleted_disjoint (ops : List PubOp) (s0 : Sess) (h : DisjInv s0) :
    DisjInv (applyPubOps ops s0) ∧
    (∀ k v, k ∈ (sessWrite s0 (k, v)).cur.updated ∧
      k ∉ (sessWrite s0 (k, v)).cur.deleted) ∧
    (∀ k, k ∈ (sessErase s0 k).cur.deleted ∧
      k ∉ (sessErase s0 k).cur.updated) := by
  refine ⟨disj_applyPubOps ops s0 h, ?_, ?_⟩
  · intro k v
    obtain ⟨p1, p2, -, -, -, -⟩ := sessWrite_proj s0 (k, v)
    constructor
    · rw [p1, mem_insertKey]
      exact Or.inr rfl
    · rw [p2, mem_eraseKey]
      rintro ⟨-, hne⟩
      exact hne rfl
  · intro k
    obtain ⟨p1, p2, -, -, -, -⟩ := sessErase_proj s0 k
    constructor
    · rw [p2, mem_insertKey]
      exact Or.inr rfl
    · rw [p1, mem_eraseKey]
      rintro ⟨-, hne⟩
      exact hne rfl

/-- Witness for C8: a write, an erase and a commit on a fresh root. -/
theorem updated_deleted_disjoint_witness :
    DisjInv (applyPubOps [.wr (1, 10), .er 2, .cmt] c8s) ∧
    1 ∈ (sessWrite c8s (1, 5)).cur.updated := by
  have h := updated_deleted_disjoint [.wr (1, 10), .er 2, .cmt] c8s (by decide)
  exact ⟨h.1, (h.2.1 1 5).1⟩

/-- C9 (amended): on a destroyed/empty handle (null impl pointer), attach
and detach return the distinguished invalid sentinel session, commit and
undo are no-ops, and the mutators write, erase and clear change nothing
(read returns the invalid sentinel).  The claim's further assertion — that
mutators applied to the invalid sentinel itself change no observable
state — fails: the sentinel is a live session over a freshly
default-constructed empty backing store, and mutating it changes its own
observable state (see the counterexample). -/
theorem empty_handle_guards (c : Sess) (kv : K × V) (ke k : K) :
    attachH none c = (none, some invalidSession) ∧
    detachH none = (none, some invalidSession) ∧
    commitH none = none ∧
    undoH none = none ∧
    writeH none kv = none ∧
    eraseH none ke = none ∧
    clearH none = none ∧
    (readH none k).1 = none :=
  ⟨rfl, rfl, rfl, rfl, rfl, rfl, rfl, rfl⟩

/-- C9 counterexample: the invalid sentinel session is live — writing a
pair through it changes the result of a subsequent read, so a mutator
applied to the sentinel does change observable state. -/
theorem invalid_sentinel_observable_mutation :
    (readImpl invalidSession 1).1 = none ∧
    (readImpl (sessWrite invalidSession (1, 10)) 1).1 = some (1, 10) := by
  decide

/-- C10 (code bug): on a session degraded by nest/detach/undo (live impl,
no parent, null backing pointer), `contains` of a key that is neither
tombstoned nor cached reaches `backing_data_store->contains(key)` with no
presence guard — the dereference the claim asserts unreachable, modelled
as `none` — while `read`, which does guard the pointer, returns the
invalid sentinel safely. -/
theorem contains_absent_backing_unguarded :
    degSess.backing = none ∧
    layersLookup (degSess.cur :: degSess.anc) 1 = .miss ∧
    (containsImpl degSess 1).1 = none ∧
    (readImpl degSess 1).1 = none := by
  decide

end SessionKV
